import Mathlib

/-!
Verification of the session-inference component of `pyunhrcnominate`:
`calculate_sessions` and its helpers in `enrich.py`, together with the record
types of `types.py`.

Modelling conventions:
* Calendar dates are modelled as naturals written in `yyyymmdd` form; the code
  only assigns dates and (in the stated properties) compares them, and
  `yyyymmdd` naturals are ordered exactly as the corresponding dates.
* The external vote store ("Vote Store" collaborator) is modelled as a list of
  `VoteRecord`s, one per resolution in the order the `resolutions` generator
  yields them (ascending `vote_date`); each carries the raw `country_short`
  rows of the `votes` table for that resolution.
* Python exceptions and interactive halts are modelled with `Except PyError`.
* `session_cache`, a Python `dict`, is modelled as an insertion-ordered
  association list; `dict.values()` is `List.map Prod.snd`.
-/

namespace types

/-- The `Session` dataclass of `types.py` (lines 81-84): exactly two fields,
`start_date` and `end_date`. -/
structure Session where
  start_date : Nat
  end_date : Nat
  deriving DecidableEq, Repr

end types

/-- One record of the resolution stream consumed by `calculate_sessions`
(produced by the `resolutions` generator, enrich.py lines 17-24): the
resolution's name, its vote date, and the raw `country_short` values of the
`votes` rows recorded for it. -/
structure VoteRecord where
  resolution : String
  vote_date : Nat
  votes : List String
  deriving DecidableEq, Repr

/-- Python's string comparison `a <= b`, lexicographic on code points,
written on the character lists of the two strings.  (Lean's built-in string
order is decided by `String.ltb`, which is defined by well-founded recursion
and so cannot be evaluated by the kernel; this structurally recursive
comparator decides the same order.) -/
def chListLe : List Char → List Char → Bool
  | [], _ => true
  | _ :: _, [] => false
  | a :: as, b :: bs => if a < b then true else if b < a then false else chListLe as bs

/-- The order by which Python's `sorted` arranges country-code strings:
code-point lexicographic comparison. -/
def pyLe (a b : String) : Prop := chListLe a.data b.data = true

instance : DecidableRel pyLe := fun a b => instDecidableEqBool (chListLe a.data b.data) true

/-- `get_resolution_countries` (enrich.py line 15): `list(sorted(set(rows)))`,
the deduplicated country codes in ascending code-point order. -/
def get_resolution_countries (votes : List String) : List String :=
  votes.dedup.insertionSort pyLe

/-- The roster fingerprint `country_key = '|'.join(countries)`
(enrich.py line 33), applied to a stream record. -/
def rkey (r : VoteRecord) : String :=
  String.intercalate "|" (get_resolution_countries r.votes)

/-- Outcomes by which a run of `calculate_sessions` can abort.
`typeError` models the `TypeError` Python raises when `Session` is called
with five arguments at enrich.py line 44 against the two-field dataclass of
types.py; `attributeError` models the `AttributeError` that
`session_cache[country_key].resolutions.add(...)` (line 50) would raise on a
`types.Session`; `breakpointHit` models the interactive halt of the
`breakpoint()` call at line 39 (spec section 4: "The reference implementation
halts for manual inspection").  `rosterRegression` is modelled from the spec:
the `RosterRegressionError` of spec section 7, carrying the offending
resolution id, its date and the conflicting session index; no code under src/
defines or raises it, the constructor exists so that statements can refer to
it. -/
inductive PyError where
  | typeError
  | attributeError
  | breakpointHit
  | rosterRegression (resolution : String) (vote_date : Nat) (session_idx : Nat)
  deriving DecidableEq, Repr

/-- Equality of modelled run outcomes is decidable, so concrete runs can be
checked by evaluation. -/
instance {ε α : Type} [DecidableEq ε] [DecidableEq α] : DecidableEq (Except ε α) := fun x y =>
  match x, y with
  | .ok a, .ok b =>
    match decEq a b with
    | isTrue h => isTrue (congrArg Except.ok h)
    | isFalse h => isFalse fun hh => h (by cases hh; rfl)
  | .error a, .error b =>
    match decEq a b with
    | isTrue h => isTrue (congrArg Except.error h)
    | isFalse h => isFalse fun hh => h (by cases hh; rfl)
  | .ok _, .error _ => isFalse fun hh => Except.noConfusion hh
  | .error _, .ok _ => isFalse fun hh => Except.noConfusion hh

/-- Python `key in dict` lookup for the insertion-ordered association list
modelling `session_cache`. -/
def cacheFind {α : Type} : List (String × α) → String → Option α
  | [], _ => none
  | e :: rest, k => if e.1 = k then some e.2 else cacheFind rest k

/-- The loop of `calculate_sessions` (enrich.py lines 26-54) exactly as
written: the regression check (line 38) halts at a breakpoint; otherwise, a
fingerprint not yet in `session_cache` leads to the five-argument `Session`
construction of line 44, which raises `TypeError` since the imported
`types.Session` dataclass takes only `(start_date, end_date)`; a fingerprint
already in the cache leads to line 50's `.resolutions.add`, an
`AttributeError` on a `types.Session` (unreachable: no insertion ever
succeeds). -/
def calcImplGo (session_idx : Nat) (session_cache : List (String × types.Session))
    (last_country_key : Option String) : List VoteRecord → Except PyError (List types.Session)
  | [] => Except.ok (session_cache.map Prod.snd)
  | r :: _ =>
    let country_key := rkey r
    if last_country_key ≠ some country_key ∧ (cacheFind session_cache country_key).isSome then
      Except.error PyError.breakpointHit
    else if (cacheFind session_cache country_key).isNone then
      Except.error PyError.typeError
    else
      Except.error PyError.attributeError

/-- `calculate_sessions` (enrich.py lines 26-54) over the code as it stands,
with `session_idx = 1`, an empty `session_cache` and `last_country_key =
None` as initial state. -/
def calculate_sessions (db : List VoteRecord) : Except PyError (List types.Session) :=
  calcImplGo 1 [] none db

/-- Modelled from the spec: the Session record class that `calculate_sessions`
constructs (`Session(session_idx, set(countries), set(), voted_date,
last_vote=None)`, enrich.py line 44) is missing from src/ — the `Session` of
types.py is an unrelated `(start_date, end_date)` pair — so its fields are
taken from spec section 3: the 1-based `index`, the `members` roster, the
growing `resolutions` set, and `first_vote` / `last_vote` (the latter `None`
at creation, matching the call site). -/
structure Session where
  index : Nat
  members : Finset String
  resolutions : Finset String
  first_vote : Nat
  last_vote : Option Nat
  deriving DecidableEq

/-- The two mutation statements of the loop body (enrich.py lines 49-50):
`session_cache[country_key].last_vote = voted_date` and
`session_cache[country_key].resolutions.add(resolution)`, applied to the
entry whose key is `country_key`. -/
def updateCache (cache : List (String × Session)) (country_key : String) (r : VoteRecord) :
    List (String × Session) :=
  cache.map fun e =>
    if e.1 = country_key then
      (e.1, { e.2 with last_vote := some r.vote_date,
                       resolutions := insert r.resolution e.2.resolutions })
    else e

/-- Modelled from the spec: the loop of `calculate_sessions` with the control
flow of enrich.py lines 26-54 unchanged, run over the spec's `Session` record
(the class the source constructs but src/ does not define).  `breakpoint()`
at line 39 is modelled as the halting outcome `PyError.breakpointHit`
(spec section 4: the reference implementation halts for manual inspection).
New sessions are appended (Python dicts preserve insertion order) and the
mutations of lines 49-50 run on every iteration. -/
def calcSpecGo (session_idx : Nat) (session_cache : List (String × Session))
    (last_country_key : Option String) : List VoteRecord → Except PyError (List Session)
  | [] => Except.ok (session_cache.map Prod.snd)
  | r :: rest =>
    let country_key := rkey r
    if last_country_key ≠ some country_key ∧ (cacheFind session_cache country_key).isSome then
      Except.error PyError.breakpointHit
    else if (cacheFind session_cache country_key).isNone then
      calcSpecGo (session_idx + 1)
        (updateCache
          (session_cache ++
            [(country_key,
              ⟨session_idx, (get_resolution_countries r.votes).toFinset, ∅,
                r.vote_date, none⟩)])
          country_key r)
        (some country_key) rest
    else
      calcSpecGo session_idx (updateCache session_cache country_key r) (some country_key) rest

/-- Modelled from the spec: `calculate_sessions` over the spec's `Session`
record class (see `calcSpecGo`), from the same initial state as the source. -/
def calculate_sessions_spec (db : List VoteRecord) : Except PyError (List Session) :=
  calcSpecGo 1 [] none db

/-- The records of `p` whose roster fingerprint is `k`. -/
def fk (p : List VoteRecord) (k : String) : List VoteRecord :=
  p.filter (fun r => rkey r = k)

/-- The dates of the stream are non-decreasing (the `resolutions` generator
orders by `vote_date ASC`, enrich.py line 20). -/
def DatesSorted (p : List VoteRecord) : Prop :=
  p.Pairwise (fun a b => a.vote_date ≤ b.vote_date)

instance (p : List VoteRecord) : Decidable (DatesSorted p) :=
  inferInstanceAs (Decidable (p.Pairwise fun a b : VoteRecord => a.vote_date ≤ b.vote_date))

/-- The loop invariant of `calcSpecGo`: after the records of `p` have been
processed, the state `(idx, cache, lk)` is characterised entirely by `p`.
Each cache entry's sessions carry exactly the resolutions, first and last
dates of the records of `p` bearing that entry's fingerprint; keys are
distinct, indices are `1..cache.length` in insertion order, and every
processed record's fingerprint is registered. -/
structure CacheInv (p : List VoteRecord) (idx : Nat) (cache : List (String × Session))
    (lk : Option String) : Prop where
  nodupKeys : (cache.map Prod.fst).Nodup
  idxEq : idx = cache.length + 1
  indexChar : cache.map (fun e => e.2.index) = List.range' 1 cache.length
  memberChar : ∀ e ∈ cache, ∃ r ∈ p, rkey r = e.1 ∧
    e.2.members = (get_resolution_countries r.votes).toFinset
  resChar : ∀ e ∈ cache, e.2.resolutions = ((fk p e.1).map (·.resolution)).toFinset
  firstChar : ∀ e ∈ cache, (fk p e.1).head?.map (·.vote_date) = some e.2.first_vote
  lastChar : ∀ e ∈ cache, e.2.last_vote = ((fk p e.1).getLast?.map (·.vote_date))
  covered : ∀ r ∈ p, rkey r ∈ cache.map Prod.fst
  lkChar : lk = p.getLast?.map rkey

/-- The union of the `resolutions` sets of a list of Sessions. -/
def unionResolutions (sessions : List Session) : Finset String :=
  sessions.foldr (fun s acc => s.resolutions ∪ acc) ∅

/-- The character stream denoted by joining a list of chunks with a
separator: the first chunk, then each later chunk preceded by the separator.
`String.intercalate`'s characters follow this shape (see
`intercalate_data`). -/
def chunksSep (sep : List Char) : List (List Char) → List Char
  | [] => []
  | a :: as => a ++ (as.map fun x => sep ++ x).flatten

/-- The stream contract (spec section 6) supplies 3-letter country codes; for
the fingerprint's injectivity all that is needed is that codes are non-empty
and contain no `'|'` (the join separator). -/
def WellFormedCodes (v : List String) : Prop :=
  ∀ c ∈ v, c ≠ "" ∧ '|' ∉ c.data

instance (v : List String) : Decidable (WellFormedCodes v) :=
  inferInstanceAs (Decidable (∀ c ∈ v, c ≠ "" ∧ '|' ∉ c.data))

/-- The single-session scenario input of spec section 8. -/
def singleSessionDb : List VoteRecord :=
  [⟨"R1", 20200101, ["USA", "FRA"]⟩, ⟨"R2", 20200601, ["USA", "FRA"]⟩]

/-- The membership-change scenario input of spec section 8. -/
def membershipChangeDb : List VoteRecord :=
  [⟨"R1", 20200101, ["USA", "FRA"]⟩, ⟨"R2", 20210101, ["USA", "FRA", "DEU"]⟩]

/-- The roster-regression scenario input of spec section 8: rosters
`{A,B,C}`, `{A,B}`, `{A,B,C}` on three ascending dates. -/
def regressionDb : List VoteRecord :=
  [⟨"R1", 20200101, ["A", "B", "C"]⟩, ⟨"R2", 20200201, ["A", "B"]⟩,
    ⟨"R3", 20200301, ["A", "B", "C"]⟩]

/-- C5: the empty input stream yields an empty sequence of Sessions and no
error: the loop body never runs and the values of the empty cache are
emitted. -/
theorem calculate_sessions_empty_stream :
    calculate_sessions ([] : List VoteRecord) = Except.ok [] := rfl

/-- C2: on every non-empty input stream the code raises `TypeError` at the
first record, before any Session is produced: the first fingerprint is not in
the empty `session_cache`, so enrich.py line 44 calls `Session` with five
arguments against the `(start_date, end_date)` dataclass imported from
types.py. -/
theorem calculate_sessions_nonempty_typeError (r : VoteRecord) (rest : List VoteRecord) :
    calculate_sessions (r :: rest) = Except.error PyError.typeError := rfl

/-- C3: the single-session scenario yields exactly one Session with index 1,
members `{USA, FRA}`, resolutions `{R1, R2}`, first vote 2020-01-01 and last
vote 2020-06-01; and any single-record stream yields exactly one Session
whose last vote equals its first vote. -/
theorem calculate_sessions_spec_single_session (r : VoteRecord) :
    calculate_sessions_spec singleSessionDb =
      Except.ok [⟨1, {"FRA", "USA"}, {"R1", "R2"}, 20200101, some 20200601⟩] ∧
    calculate_sessions_spec [r] =
      Except.ok [⟨1, (get_resolution_countries r.votes).toFinset, {r.resolution},
        r.vote_date, some r.vote_date⟩] := by
  refine ⟨?_, ?_⟩
  · rw [show ({"R1", "R2"} : Finset String) = {"R2", "R1"} from by decide]
    rfl
  · simp [calculate_sessions_spec, calcSpecGo, cacheFind, updateCache]

/-- C1 counterexample: on the regression scenario `[{A,B,C} @ t1, {A,B} @ t2,
{A,B,C} @ t3]` the run raises no `RosterRegressionError`: it stops at the
modelled `breakpoint()` halt of enrich.py line 39, and the unmodified code,
which cannot construct a Session record at all, raises `TypeError` already at
the first record. -/
theorem regression_no_typed_error :
    calculate_sessions_spec regressionDb = Except.error PyError.breakpointHit ∧
    calculate_sessions regressionDb = Except.error PyError.typeError :=
  ⟨rfl, rfl⟩

/-- C1 amended: processing the first two regression-scenario records succeeds
(two Sessions so far, `R3` attributed to neither), and the full scenario
halts at the `breakpoint()` of the regression check when the third record
reappears with roster `{A,B,C}`, rather than raising a typed
`RosterRegressionError` carrying the resolution id, date and conflicting
session index; in particular `R3` is not silently added to the Session
registered for roster `{A,B,C}`. -/
theorem regression_halts_at_third :
    calculate_sessions_spec (regressionDb.take 2) =
      Except.ok [⟨1, {"A", "B", "C"}, {"R1"}, 20200101, some 20200101⟩,
        ⟨2, {"A", "B"}, {"R2"}, 20200201, some 20200201⟩] ∧
    calculate_sessions_spec regressionDb = Except.error PyError.breakpointHit :=
  ⟨rfl, rfl⟩

/-- `cacheFind` misses exactly the keys that are absent from the cache. -/
theorem cacheFind_eq_none_iff {α : Type} (c : List (String × α)) (k : String) :
    cacheFind c k = none ↔ k ∉ c.map Prod.fst := by
  induction c with
  | nil => simp [cacheFind]
  | cons e rest ih =>
    by_cases h : e.1 = k
    · simp [cacheFind, h]
    · simp [cacheFind, h, ih, Ne.symm h]

/-- `cacheFind` hits exactly the keys present in the cache. -/
theorem cacheFind_isSome_iff {α : Type} (c : List (String × α)) (k : String) :
    (cacheFind c k).isSome = true ↔ k ∈ c.map Prod.fst := by
  induction c with
  | nil => simp [cacheFind]
  | cons e rest ih =>
    by_cases h : e.1 = k
    · simp [cacheFind, h]
    · simp [cacheFind, h, ih, Ne.symm h]

/-- The mutations of enrich.py lines 49-50 do not change the cache's keys. -/
theorem updateCache_keys (c : List (String × Session)) (k : String) (r : VoteRecord) :
    (updateCache c k r).map Prod.fst = c.map Prod.fst := by
  unfold updateCache
  rw [List.map_map]
  apply List.map_congr_left
  intro e _
  by_cases h : e.1 = k <;> simp [h]

/-- The mutations of enrich.py lines 49-50 do not change the cache's length. -/
theorem updateCache_length (c : List (String × Session)) (k : String) (r : VoteRecord) :
    (updateCache c k r).length = c.length :=
  List.length_map _ _

/-- The mutations of enrich.py lines 49-50 do not change the indices. -/
theorem updateCache_indices (c : List (String × Session)) (k : String) (r : VoteRecord) :
    (updateCache c k r).map (fun e => e.2.index) = c.map (fun e => e.2.index) := by
  unfold updateCache
  rw [List.map_map]
  apply List.map_congr_left
  intro e _
  by_cases h : e.1 = k <;> simp [h]

/-- Splitting an appended record over the fingerprint filter. -/
theorem fk_append_of_eq (p : List VoteRecord) (r : VoteRecord) (k : String)
    (h : rkey r = k) : fk (p ++ [r]) k = fk p k ++ [r] := by
  simp [fk, List.filter_append, h]

/-- A record with a different fingerprint does not change the filter. -/
theorem fk_append_of_ne (p : List VoteRecord) (r : VoteRecord) (k : String)
    (h : rkey r ≠ k) : fk (p ++ [r]) k = fk p k := by
  simp [fk, List.filter_append, h]

/-- Membership in the union of the Sessions' resolution sets. -/
theorem mem_unionResolutions (sessions : List Session) (a : String) :
    a ∈ unionResolutions sessions ↔ ∃ s ∈ sessions, a ∈ s.resolutions := by
  induction sessions with
  | nil => simp [unionResolutions]
  | cons s rest ih =>
    have hc : unionResolutions (s :: rest) = s.resolutions ∪ unionResolutions rest := rfl
    rw [hc]
    simp [Finset.mem_union, ih]

/-- A function injective on a list whose image list has no duplicates. -/
theorem nodup_map_inj {α β : Type} {f : α → β} {l : List α} (h : (l.map f).Nodup)
    {a b : α} (ha : a ∈ l) (hb : b ∈ l) (hfab : f a = f b) : a = b := by
  by_contra hne
  have hp : l.Pairwise (fun x y => f x ≠ f y) := List.pairwise_map.mp h
  have hsym : Symmetric (fun x y => f x ≠ f y) := fun x y h' e => h' e.symm
  exact hp.forall hsym ha hb hne hfab

/-- In a list pairwise-sorted by date, the head's date bounds every member. -/
theorem head_date_le {l : List VoteRecord}
    (hp : l.Pairwise (fun a b => a.vote_date ≤ b.vote_date)) {a x : VoteRecord}
    (ha : l.head? = some a) (hx : x ∈ l) : a.vote_date ≤ x.vote_date := by
  cases l with
  | nil => cases ha
  | cons y t =>
    cases ha
    rcases List.mem_cons.mp hx with rfl | hxt
    · exact le_refl _
    · exact (List.pairwise_cons.mp hp).1 x hxt

/-- In a list pairwise-sorted by date, the last element's date bounds every
member. -/
theorem date_le_getLast {l : List VoteRecord}
    (hp : l.Pairwise (fun a b => a.vote_date ≤ b.vote_date)) {b x : VoteRecord}
    (hb : l.getLast? = some b) (hx : x ∈ l) : x.vote_date ≤ b.vote_date := by
  induction l with
  | nil => cases hb
  | cons y t ih =>
    cases t with
    | nil =>
      cases hb
      rcases List.mem_singleton.mp hx with rfl
      exact le_refl _
    | cons z t' =>
      have hb' : (z :: t').getLast? = some b := by
        simpa [List.getLast?_cons_cons] using hb
      rcases List.mem_cons.mp hx with rfl | hxt
      · exact (List.pairwise_cons.mp hp).1 b (List.mem_of_getLast?_eq_some hb')
      · exact ih (List.pairwise_cons.mp hp).2 hb' hxt

/-- Appending one element to a list adds it to the list's `toFinset`. -/
theorem toFinset_concat {α : Type} [DecidableEq α] (l : List α) (a : α) :
    (l ++ [a]).toFinset = insert a l.toFinset := by
  ext x
  simp [List.mem_toFinset, List.mem_append, or_comm]

/-- Updating a key that is absent leaves the cache unchanged. -/
theorem updateCache_not_mem (c : List (String × Session)) (k : String) (r : VoteRecord)
    (h : k ∉ c.map Prod.fst) : updateCache c k r = c := by
  unfold updateCache
  have : ∀ e ∈ c, (fun e : String × Session =>
      if e.1 = k then
        (e.1, { e.2 with last_vote := some r.vote_date,
                         resolutions := insert r.resolution e.2.resolutions })
      else e) e = id e := by
    intro e he
    have : e.1 ≠ k := fun hk => h (hk ▸ List.mem_map_of_mem Prod.fst he)
    simp [this]
  rw [List.map_congr_left this, List.map_id]

/-- No record of `p` carries an unregistered fingerprint, so the filter for
such a fingerprint is empty. -/
theorem fk_eq_nil_of_not_covered {p : List VoteRecord} {idx cache lk}
    (inv : CacheInv p idx cache lk) {k : String} (hk : k ∉ cache.map Prod.fst) :
    fk p k = [] := by
  apply List.filter_eq_nil_iff.mpr
  intro r' hr'
  simp only [decide_eq_true_eq]
  intro hkey
  exact hk (hkey ▸ inv.covered r' hr')

/-- In the new-fingerprint branch, the freshly registered entry is at once
mutated by lines 49-50: the combined effect appends one fully initialised
entry. -/
theorem newCache_eq (cache : List (String × Session)) (idx : Nat) (r : VoteRecord)
    (hnone : rkey r ∉ cache.map Prod.fst) :
    updateCache (cache ++ [(rkey r, ⟨idx, (get_resolution_countries r.votes).toFinset, ∅,
        r.vote_date, none⟩)]) (rkey r) r
    = cache ++ [(rkey r, ⟨idx, (get_resolution_countries r.votes).toFinset,
        {r.resolution}, r.vote_date, some r.vote_date⟩)] := by
  unfold updateCache
  rw [List.map_append]
  have h1 : updateCache cache (rkey r) r = cache := updateCache_not_mem cache (rkey r) r hnone
  unfold updateCache at h1
  rw [h1]
  simp

/-- Preservation of the loop invariant across one iteration that registers a
new fingerprint (enrich.py lines 41-47 followed by 49-51). -/
theorem cacheInv_step_new {p : List VoteRecord} {idx : Nat}
    {cache : List (String × Session)} {lk : Option String} (r : VoteRecord)
    (inv : CacheInv p idx cache lk) (hnone : rkey r ∉ cache.map Prod.fst) :
    CacheInv (p ++ [r]) (idx + 1)
      (cache ++ [(rkey r, ⟨idx, (get_resolution_countries r.votes).toFinset,
        {r.resolution}, r.vote_date, some r.vote_date⟩)]) (some (rkey r)) := by
  have hfkp : fk p (rkey r) = [] := fk_eq_nil_of_not_covered inv hnone
  have hkeyne : ∀ e ∈ cache, e.1 ≠ rkey r := by
    intro e he hk
    exact hnone (hk ▸ List.mem_map_of_mem Prod.fst he)
  refine ⟨?_, ?_, ?_, ?_, ?_, ?_, ?_, ?_, ?_⟩
  · rw [List.map_append]
    simp only [List.map_cons, List.map_nil]
    rw [List.nodup_append]
    exact ⟨inv.nodupKeys, List.nodup_singleton _,
      by simpa using fun hk => hnone hk⟩
  · simp [inv.idxEq]
  · rw [List.map_append, inv.indexChar]
    simp [List.length_append, List.range'_1_concat, inv.idxEq, Nat.add_comm]
  · intro e he
    rcases List.mem_append.mp he with h | h
    · obtain ⟨r', hr', hkey, hmem⟩ := inv.memberChar e h
      exact ⟨r', List.mem_append_left _ hr', hkey, hmem⟩
    · rcases List.mem_singleton.mp h with rfl
      exact ⟨r, List.mem_append_right _ (List.mem_singleton_self r), rfl, rfl⟩
  · intro e he
    rcases List.mem_append.mp he with h | h
    · rw [fk_append_of_ne _ _ _ (fun hk => hkeyne e h hk.symm)]
      exact inv.resChar e h
    · rcases List.mem_singleton.mp h with rfl
      rw [fk_append_of_eq _ _ _ rfl, hfkp]
      simp
  · intro e he
    rcases List.mem_append.mp he with h | h
    · rw [fk_append_of_ne _ _ _ (fun hk => hkeyne e h hk.symm)]
      exact inv.firstChar e h
    · rcases List.mem_singleton.mp h with rfl
      rw [fk_append_of_eq _ _ _ rfl, hfkp]
      rfl
  · intro e he
    rcases List.mem_append.mp he with h | h
    · rw [fk_append_of_ne _ _ _ (fun hk => hkeyne e h hk.symm)]
      exact inv.lastChar e h
    · rcases List.mem_singleton.mp h with rfl
      rw [fk_append_of_eq _ _ _ rfl, hfkp]
      rfl
  · intro r' hr'
    rw [List.map_append]
    rcases List.mem_append.mp hr' with h | h
    · exact List.mem_append_left _ (inv.covered r' h)
    · rcases List.mem_singleton.mp h with rfl
      simp
  · rw [List.getLast?_concat]
    rfl

/-- Preservation of the loop invariant across one iteration whose fingerprint
is already registered (only the mutations of enrich.py lines 49-51 run). -/
theorem cacheInv_step_old {p : List VoteRecord} {idx : Nat}
    {cache : List (String × Session)} {lk : Option String} (r : VoteRecord)
    (inv : CacheInv p idx cache lk) (hmem : rkey r ∈ cache.map Prod.fst) :
    CacheInv (p ++ [r]) idx (updateCache cache (rkey r) r) (some (rkey r)) := by
  have hupd : ∀ e' ∈ updateCache cache (rkey r) r, ∃ e ∈ cache,
      e' = if e.1 = rkey r then
        (e.1, { e.2 with last_vote := some r.vote_date,
                         resolutions := insert r.resolution e.2.resolutions })
      else e := by
    intro e' he'
    obtain ⟨e, he, hee⟩ := List.mem_map.mp he'
    exact ⟨e, he, hee.symm⟩
  refine ⟨?_, ?_, ?_, ?_, ?_, ?_, ?_, ?_, ?_⟩
  · rw [updateCache_keys]
    exact inv.nodupKeys
  · rw [updateCache_length]
    exact inv.idxEq
  · rw [updateCache_indices, updateCache_length]
    exact inv.indexChar
  · intro e' he'
    obtain ⟨e, he, hee⟩ := hupd e' he'
    by_cases hk : e.1 = rkey r
    · obtain ⟨r', hr', hkey, hmm⟩ := inv.memberChar e he
      rw [hee, if_pos hk]
      exact ⟨r', List.mem_append_left _ hr', hkey, hmm⟩
    · rw [hee, if_neg hk]
      obtain ⟨r', hr', hkey, hmm⟩ := inv.memberChar e he
      exact ⟨r', List.mem_append_left _ hr', hkey, hmm⟩
  · intro e' he'
    obtain ⟨e, he, hee⟩ := hupd e' he'
    by_cases hk : e.1 = rkey r
    · rw [hee, if_pos hk]
      show insert r.resolution e.2.resolutions
        = ((fk (p ++ [r]) e.1).map (·.resolution)).toFinset
      rw [fk_append_of_eq _ _ _ hk.symm, List.map_append]
      simp only [List.map_cons, List.map_nil]
      rw [toFinset_concat, inv.resChar e he]
    · rw [hee, if_neg hk]
      rw [fk_append_of_ne _ _ _ (fun h => hk h.symm)]
      exact inv.resChar e he
  · intro e' he'
    obtain ⟨e, he, hee⟩ := hupd e' he'
    by_cases hk : e.1 = rkey r
    · rw [hee, if_pos hk]
      show (fk (p ++ [r]) e.1).head?.map (·.vote_date) = some e.2.first_vote
      rw [fk_append_of_eq _ _ _ hk.symm]
      have h1 := inv.firstChar e he
      obtain ⟨x, hx, hxd⟩ := Option.map_eq_some'.mp h1
      rw [List.head?_append, hx]
      exact Option.map_eq_some'.mpr ⟨x, rfl, hxd⟩
    · rw [hee, if_neg hk]
      rw [fk_append_of_ne _ _ _ (fun h => hk h.symm)]
      exact inv.firstChar e he
  · intro e' he'
    obtain ⟨e, he, hee⟩ := hupd e' he'
    by_cases hk : e.1 = rkey r
    · rw [hee, if_pos hk]
      show some r.vote_date = (fk (p ++ [r]) e.1).getLast?.map (·.vote_date)
      rw [fk_append_of_eq _ _ _ hk.symm, List.getLast?_concat]
      rfl
    · rw [hee, if_neg hk]
      rw [fk_append_of_ne _ _ _ (fun h => hk h.symm)]
      exact inv.lastChar e he
  · intro r' hr'
    rw [updateCache_keys]
    rcases List.mem_append.mp hr' with h | h
    · exact inv.covered r' h
    · rcases List.mem_singleton.mp h with rfl
      exact hmem
  · rw [List.getLast?_concat]
    rfl

/-- The initial state of `calculate_sessions` (enrich.py lines 27-30)
satisfies the loop invariant for the empty processed prefix. -/
theorem cacheInv_init : CacheInv [] 1 [] none := by
  refine ⟨List.nodup_nil, rfl, rfl, ?_, ?_, ?_, ?_, ?_, rfl⟩ <;>
    exact fun e he => absurd he (List.not_mem_nil e)

/-- A successful run of the loop from a state satisfying the invariant ends
in a state satisfying the invariant for the whole processed stream and emits
exactly the cached Sessions in insertion order. -/
theorem calcSpecGo_ok (rem : List VoteRecord) :
    ∀ (p : List VoteRecord) (idx : Nat) (cache : List (String × Session))
    (lk : Option String), CacheInv p idx cache lk →
    ∀ sessions, calcSpecGo idx cache lk rem = Except.ok sessions →
    ∃ idxF cacheF lkF, CacheInv (p ++ rem) idxF cacheF lkF ∧
      sessions = cacheF.map Prod.snd := by
  induction rem with
  | nil =>
    intro p idx cache lk inv sessions h
    simp only [calcSpecGo] at h
    exact ⟨idx, cache, lk, by simpa using inv, (Except.ok.inj h).symm⟩
  | cons r rest ih =>
    intro p idx cache lk inv sessions h
    simp only [calcSpecGo] at h
    by_cases h1 : lk ≠ some (rkey r) ∧ (cacheFind cache (rkey r)).isSome
    · rw [if_pos h1] at h
      exact Except.noConfusion h
    · rw [if_neg h1] at h
      by_cases h2 : (cacheFind cache (rkey r)).isNone
      · rw [if_pos h2] at h
        have hnone : rkey r ∉ cache.map Prod.fst :=
          (cacheFind_eq_none_iff cache (rkey r)).mp (Option.isNone_iff_eq_none.mp h2)
        rw [newCache_eq cache idx r hnone] at h
        obtain ⟨i2, c2, l2, hi, hs⟩ :=
          ih (p ++ [r]) (idx + 1) _ (some (rkey r)) (cacheInv_step_new r inv hnone) sessions h
        exact ⟨i2, c2, l2, by simpa [List.append_assoc] using hi, hs⟩
      · rw [if_neg h2] at h
        have hmem : rkey r ∈ cache.map Prod.fst := by
          rw [← cacheFind_isSome_iff]
          cases hcf : cacheFind cache (rkey r)
          · rw [hcf] at h2
            simp at h2
          · simp
        obtain ⟨i2, c2, l2, hi, hs⟩ :=
          ih (p ++ [r]) idx _ (some (rkey r)) (cacheInv_step_old r inv hmem) sessions h
        exact ⟨i2, c2, l2, by simpa [List.append_assoc] using hi, hs⟩

/-- Every successful run of the spec-modelled `calculate_sessions` is fully
characterised by the loop invariant over the whole input stream. -/
theorem calculate_sessions_spec_ok {db : List VoteRecord} {sessions : List Session}
    (h : calculate_sessions_spec db = Except.ok sessions) :
    ∃ idxF cacheF lkF, CacheInv db idxF cacheF lkF ∧ sessions = cacheF.map Prod.snd := by
  have := calcSpecGo_ok db [] 1 [] none cacheInv_init sessions h
  simpa using this

/-- Python's string comparison is total. -/
theorem chListLe_total : ∀ x y : List Char, chListLe x y = true ∨ chListLe y x = true := by
  intro x
  induction x with
  | nil => intro y; left; rfl
  | cons a as ih =>
    intro y
    cases y with
    | nil => right; rfl
    | cons b bs =>
      by_cases hab : a < b
      · left
        simp [chListLe, hab]
      · by_cases hba : b < a
        · right
          simp [chListLe, hba]
        · have hne : ¬ a < b ∧ ¬ b < a := ⟨hab, hba⟩
          rcases ih bs with h | h
          · left
            simp [chListLe, hab, hba, h]
          · right
            simp [chListLe, hab, hba, h]

/-- Python's string comparison is transitive. -/
theorem chListLe_trans : ∀ x y z : List Char, chListLe x y = true → chListLe y z = true →
    chListLe x z = true := by
  intro x
  induction x with
  | nil => intro y z _ _; rfl
  | cons a as ih =>
    intro y z hxy hyz
    cases y with
    | nil => simp [chListLe] at hxy
    | cons b bs =>
      cases z with
      | nil => simp [chListLe] at hyz
      | cons c cs =>
        by_cases hab : a < b
        · -- a < b; from y ≤ z get b < c or b = c
          by_cases hbc : b < c
          · simp [chListLe, lt_trans hab hbc]
          · by_cases hcb : c < b
            · simp [chListLe, hbc, hcb] at hyz
            · have hbceq : b = c := le_antisymm (not_lt.mp hcb) (not_lt.mp hbc)
              simp [chListLe, hbceq ▸ hab]
        · by_cases hba : b < a
          · simp [chListLe, hab, hba] at hxy
          · have habeq : a = b := le_antisymm (not_lt.mp hba) (not_lt.mp hab)
            subst habeq
            simp only [chListLe, lt_irrefl, if_false] at hxy
            by_cases hac : a < c
            · simp [chListLe, hac]
            · by_cases hca : c < a
              · simp [chListLe, hac, hca] at hyz
              · have haceq : a = c := le_antisymm (not_lt.mp hca) (not_lt.mp hac)
                subst haceq
                simp only [chListLe, lt_irrefl, if_false] at hyz ⊢
                exact ih bs cs hxy hyz

/-- Python's string comparison is antisymmetric. -/
theorem chListLe_antisymm : ∀ x y : List Char, chListLe x y = true → chListLe y x = true →
    x = y := by
  intro x
  induction x with
  | nil =>
    intro y _ hyx
    cases y with
    | nil => rfl
    | cons b bs => simp [chListLe] at hyx
  | cons a as ih =>
    intro y hxy hyx
    cases y with
    | nil => simp [chListLe] at hxy
    | cons b bs =>
      by_cases hab : a < b
      · simp [chListLe, hab, asymm hab] at hyx
      · by_cases hba : b < a
        · simp [chListLe, hab, hba] at hxy
        · have habeq : a = b := le_antisymm (not_lt.mp hba) (not_lt.mp hab)
          subst habeq
          simp only [chListLe, lt_irrefl, if_false] at hxy hyx
          rw [ih bs hxy hyx]

instance : IsTotal String pyLe := ⟨fun a b => chListLe_total a.data b.data⟩

instance : IsTrans String pyLe := ⟨fun a b c => chListLe_trans a.data b.data c.data⟩

instance : IsAntisymm String pyLe :=
  ⟨fun a b h1 h2 => String.ext (chListLe_antisymm a.data b.data h1 h2)⟩

/-- `get_resolution_countries` is a permutation of the deduplicated input. -/
theorem grc_perm_dedup (votes : List String) :
    List.Perm (get_resolution_countries votes) votes.dedup :=
  List.perm_insertionSort pyLe votes.dedup

/-- `get_resolution_countries` does not change the underlying set. -/
theorem grc_toFinset (votes : List String) :
    (get_resolution_countries votes).toFinset = votes.toFinset := by
  rw [List.toFinset_eq_of_perm _ _ (grc_perm_dedup votes)]
  apply List.toFinset.ext
  intro x
  exact List.mem_dedup

/-- `get_resolution_countries` has no duplicates. -/
theorem grc_nodup (votes : List String) : (get_resolution_countries votes).Nodup :=
  (grc_perm_dedup votes).nodup_iff.mpr votes.nodup_dedup

/-- `get_resolution_countries` is sorted by Python's string order. -/
theorem grc_sorted (votes : List String) :
    List.Sorted pyLe (get_resolution_countries votes) :=
  List.sorted_insertionSort pyLe votes.dedup

/-- Set-equal inputs canonicalise to the identical sorted roster list:
deduplication and sorting are a canonical form for the roster. -/
theorem grc_eq_of_toFinset_eq {v1 v2 : List String} (h : v1.toFinset = v2.toFinset) :
    get_resolution_countries v1 = get_resolution_countries v2 := by
  apply List.eq_of_perm_of_sorted _ (grc_sorted v1) (grc_sorted v2)
  apply List.perm_of_nodup_nodup_toFinset_eq (grc_nodup v1) (grc_nodup v2)
  rw [grc_toFinset, grc_toFinset, h]

/-- C4: the membership-change scenario yields exactly two Sessions — Session
1 with members `{USA, FRA}`, resolutions `{R1}` and both dates 2020-01-01,
and Session 2 with members `{USA, FRA, DEU}`, resolutions `{R2}` and both
dates 2021-01-01; and in every completed run the emitted indices are exactly
`1, 2, ..., n` in emission order, so they are 1-based, assigned in first
appearance order, strictly increasing and never reused. -/
theorem calculate_sessions_spec_membership_change (db : List VoteRecord)
    (sessions : List Session) (h : calculate_sessions_spec db = Except.ok sessions) :
    sessions.map Session.index = List.range' 1 sessions.length ∧
    calculate_sessions_spec membershipChangeDb =
      Except.ok [⟨1, {"FRA", "USA"}, {"R1"}, 20200101, some 20200101⟩,
        ⟨2, {"DEU", "FRA", "USA"}, {"R2"}, 20210101, some 20210101⟩] := by
  constructor
  · obtain ⟨idxF, cacheF, lkF, inv, rfl⟩ := calculate_sessions_spec_ok h
    simpa [List.map_map, List.length_map, Function.comp] using inv.indexChar
  · rfl

/-- C4 witness: the theorem applied to the membership-change scenario. -/
theorem calculate_sessions_spec_membership_change_witness :
    ([⟨1, {"FRA", "USA"}, {"R1"}, 20200101, some 20200101⟩,
      ⟨2, {"DEU", "FRA", "USA"}, {"R2"}, 20210101, some 20210101⟩] : List Session).map
        Session.index =
      List.range' 1 ([⟨1, {"FRA", "USA"}, {"R1"}, 20200101, some 20200101⟩,
        ⟨2, {"DEU", "FRA", "USA"}, {"R2"}, 20210101, some 20210101⟩] : List Session).length ∧
    calculate_sessions_spec membershipChangeDb =
      Except.ok [⟨1, {"FRA", "USA"}, {"R1"}, 20200101, some 20200101⟩,
        ⟨2, {"DEU", "FRA", "USA"}, {"R2"}, 20210101, some 20210101⟩] :=
  calculate_sessions_spec_membership_change membershipChangeDb
    [⟨1, {"FRA", "USA"}, {"R1"}, 20200101, some 20200101⟩,
      ⟨2, {"DEU", "FRA", "USA"}, {"R2"}, 20210101, some 20210101⟩] rfl

/-- C10: `calculate_sessions` is deterministic — two runs over the same
input stream yield identical Session output — and a completed run emits its
Sessions in ascending index order (equivalently, creation order): the
emitted index sequence is exactly `1, 2, ..., n`. -/
theorem calculate_sessions_spec_deterministic (db : List VoteRecord)
    (s1 s2 : List Session) (h1 : calculate_sessions_spec db = Except.ok s1)
    (h2 : calculate_sessions_spec db = Except.ok s2) :
    s1 = s2 ∧ s1.map Session.index = List.range' 1 s1.length := by
  refine ⟨Except.ok.inj (h1.symm.trans h2), ?_⟩
  obtain ⟨idxF, cacheF, lkF, inv, rfl⟩ := calculate_sessions_spec_ok h1
  simpa [List.map_map, List.length_map, Function.comp] using inv.indexChar

/-- C10 witness: the theorem applied to the single-session scenario. -/
theorem calculate_sessions_spec_deterministic_witness :
    ([⟨1, {"FRA", "USA"}, {"R2", "R1"}, 20200101, some 20200601⟩] : List Session) =
      [⟨1, {"FRA", "USA"}, {"R2", "R1"}, 20200101, some 20200601⟩] ∧
    ([⟨1, {"FRA", "USA"}, {"R2", "R1"}, 20200101, some 20200601⟩] : List Session).map
        Session.index =
      List.range' 1 ([⟨1, {"FRA", "USA"}, {"R2", "R1"}, 20200101,
        some 20200601⟩] : List Session).length :=
  calculate_sessions_spec_deterministic singleSessionDb
    [⟨1, {"FRA", "USA"}, {"R2", "R1"}, 20200101, some 20200601⟩]
    [⟨1, {"FRA", "USA"}, {"R2", "R1"}, 20200101, some 20200601⟩] rfl rfl

/-- C8: absent a detected regression (that is, whenever the run completes),
no two distinct emitted Sessions have the same `members` set: each distinct
roster is associated with exactly one Session. -/
theorem calculate_sessions_spec_members_unique (db : List VoteRecord)
    (sessions : List Session) (h : calculate_sessions_spec db = Except.ok sessions) :
    sessions.Pairwise (fun s t => s.members ≠ t.members) := by
  obtain ⟨idxF, cacheF, lkF, inv, rfl⟩ := calculate_sessions_spec_ok h
  rw [List.pairwise_map]
  have hkeys : cacheF.Pairwise (fun e1 e2 => e1.1 ≠ e2.1) :=
    List.pairwise_map.mp inv.nodupKeys
  refine List.Pairwise.imp_of_mem ?_ hkeys
  intro e1 e2 h1m h2m hne hmem
  obtain ⟨r1, _, hk1, hm1⟩ := inv.memberChar e1 h1m
  obtain ⟨r2, _, hk2, hm2⟩ := inv.memberChar e2 h2m
  apply hne
  rw [← hk1, ← hk2]
  unfold rkey
  congr 1
  apply grc_eq_of_toFinset_eq
  have hsets : (get_resolution_countries r1.votes).toFinset
      = (get_resolution_countries r2.votes).toFinset := by
    rw [← hm1, ← hm2, hmem]
  rwa [grc_toFinset, grc_toFinset] at hsets

/-- C8 witness: the theorem applied to the membership-change scenario. -/
theorem calculate_sessions_spec_members_unique_witness :
    List.Pairwise (fun s t : Session => s.members ≠ t.members)
      [⟨1, {"FRA", "USA"}, {"R1"}, 20200101, some 20200101⟩,
        ⟨2, {"DEU", "FRA", "USA"}, {"R2"}, 20210101, some 20210101⟩] :=
  calculate_sessions_spec_members_unique membershipChangeDb
    [⟨1, {"FRA", "USA"}, {"R1"}, 20200101, some 20200101⟩,
      ⟨2, {"DEU", "FRA", "USA"}, {"R2"}, 20210101, some 20210101⟩] rfl

/-- C6: partition property — on a completed run over a stream with pairwise
distinct resolution ids, the union of the emitted Sessions' `resolutions`
sets equals the set of input resolution ids, and the `resolutions` sets of
distinct Sessions are pairwise disjoint: every input resolution is assigned
to exactly one Session. -/
theorem calculate_sessions_spec_partition (db : List VoteRecord)
    (sessions : List Session) (h : calculate_sessions_spec db = Except.ok sessions)
    (hids : (db.map (fun r => r.resolution)).Nodup) :
    unionResolutions sessions = (db.map (fun r => r.resolution)).toFinset ∧
    sessions.Pairwise (fun s t => Disjoint s.resolutions t.resolutions) := by
  obtain ⟨idxF, cacheF, lkF, inv, rfl⟩ := calculate_sessions_spec_ok h
  constructor
  · ext a
    rw [mem_unionResolutions, List.mem_toFinset]
    constructor
    · rintro ⟨s, hs, ha⟩
      obtain ⟨e, he, rfl⟩ := List.mem_map.mp hs
      rw [inv.resChar e he, List.mem_toFinset] at ha
      obtain ⟨r', hr', rfl⟩ := List.mem_map.mp ha
      exact List.mem_map_of_mem _ (List.mem_of_mem_filter hr')
    · intro ha
      obtain ⟨r', hr', rfl⟩ := List.mem_map.mp ha
      obtain ⟨e, he, hek⟩ := List.mem_map.mp (inv.covered r' hr')
      refine ⟨e.2, List.mem_map_of_mem Prod.snd he, ?_⟩
      rw [inv.resChar e he, List.mem_toFinset]
      refine List.mem_map_of_mem _ ?_
      refine List.mem_filter.mpr ⟨hr', ?_⟩
      simp [hek]
  · rw [List.pairwise_map]
    have hkeys : cacheF.Pairwise (fun e1 e2 => e1.1 ≠ e2.1) :=
      List.pairwise_map.mp inv.nodupKeys
    refine List.Pairwise.imp_of_mem ?_ hkeys
    intro e1 e2 h1m h2m hne
    rw [Finset.disjoint_left]
    intro a ha1 ha2
    rw [inv.resChar e1 h1m, List.mem_toFinset] at ha1
    rw [inv.resChar e2 h2m, List.mem_toFinset] at ha2
    obtain ⟨r1, hr1, hra⟩ := List.mem_map.mp ha1
    obtain ⟨r2, hr2, hrb⟩ := List.mem_map.mp ha2
    have hr1db := List.mem_of_mem_filter hr1
    have hr2db := List.mem_of_mem_filter hr2
    have hr12 : r1 = r2 := nodup_map_inj hids hr1db hr2db (hra.trans hrb.symm)
    apply hne
    have hk1 : rkey r1 = e1.1 := by
      have := (List.mem_filter.mp hr1).2
      simpa using this
    have hk2 : rkey r2 = e2.1 := by
      have := (List.mem_filter.mp hr2).2
      simpa using this
    rw [← hk1, ← hk2, hr12]

/-- C6 witness: the theorem applied to the single-session scenario. -/
theorem calculate_sessions_spec_partition_witness :
    (singleSessionDb.map (fun r => r.resolution)).Nodup ∧
    (unionResolutions [⟨1, {"FRA", "USA"}, {"R2", "R1"}, 20200101, some 20200601⟩]
        = (singleSessionDb.map (fun r => r.resolution)).toFinset ∧
      List.Pairwise (fun s t : Session => Disjoint s.resolutions t.resolutions)
        [⟨1, {"FRA", "USA"}, {"R2", "R1"}, 20200101, some 20200601⟩]) :=
  ⟨by decide, calculate_sessions_spec_partition singleSessionDb
    [⟨1, {"FRA", "USA"}, {"R2", "R1"}, 20200101, some 20200601⟩] rfl (by decide)⟩

/-- C7: on a completed run over a date-sorted stream with distinct
resolution ids, every emitted Session has `last_vote` assigned with
`first_vote <= last_vote`; both dates are dates of resolutions assigned to
that Session, and every assigned resolution's date lies between them (so
`first_vote` and `last_vote` are the min and max of the assigned dates, and
`last_vote`, always assigned, never decreases below an assigned date). -/
theorem calculate_sessions_spec_dates (db : List VoteRecord)
    (sessions : List Session) (h : calculate_sessions_spec db = Except.ok sessions)
    (hds : DatesSorted db) (hids : (db.map (fun r => r.resolution)).Nodup) :
    ∀ s ∈ sessions, ∃ lv, s.last_vote = some lv ∧ s.first_vote ≤ lv ∧
      (∃ r ∈ db, r.resolution ∈ s.resolutions ∧ r.vote_date = s.first_vote) ∧
      (∃ r ∈ db, r.resolution ∈ s.resolutions ∧ r.vote_date = lv) ∧
      ∀ r ∈ db, r.resolution ∈ s.resolutions →
        s.first_vote ≤ r.vote_date ∧ r.vote_date ≤ lv := by
  obtain ⟨idxF, cacheF, lkF, inv, rfl⟩ := calculate_sessions_spec_ok h
  intro s hs
  obtain ⟨e, he, rfl⟩ := List.mem_map.mp hs
  obtain ⟨x, hx, hxd⟩ := Option.map_eq_some'.mp (inv.firstChar e he)
  have hFne : fk db e.1 ≠ [] := by
    intro hnil
    rw [hnil] at hx
    cases hx
  obtain ⟨y, hy⟩ : ∃ y, (fk db e.1).getLast? = some y := by
    cases hgl : (fk db e.1).getLast? with
    | some y => exact ⟨y, rfl⟩
    | none => exact absurd (List.getLast?_eq_none_iff.mp hgl) hFne
  have hFsorted : (fk db e.1).Pairwise (fun a b => a.vote_date ≤ b.vote_date) :=
    List.Pairwise.sublist (List.filter_sublist db) hds
  have hxF : x ∈ fk db e.1 := List.mem_of_mem_head? hx
  have hyF : y ∈ fk db e.1 := List.mem_of_getLast?_eq_some hy
  have hmemres : ∀ r' ∈ fk db e.1, r'.resolution ∈ e.2.resolutions := by
    intro r' hr'
    rw [inv.resChar e he, List.mem_toFinset]
    exact List.mem_map_of_mem _ hr'
  have hresmem : ∀ r ∈ db, r.resolution ∈ e.2.resolutions → r ∈ fk db e.1 := by
    intro r hr hres
    rw [inv.resChar e he, List.mem_toFinset] at hres
    obtain ⟨r', hr', hrr⟩ := List.mem_map.mp hres
    have : r = r' := nodup_map_inj hids hr (List.mem_of_mem_filter hr') hrr.symm
    rwa [this]
  refine ⟨y.vote_date, ?_, ?_, ?_, ?_, ?_⟩
  · rw [inv.lastChar e he, hy]
    rfl
  · rw [← hxd]
    exact date_le_getLast hFsorted hy hxF
  · exact ⟨x, List.mem_of_mem_filter hxF, hmemres x hxF, hxd⟩
  · exact ⟨y, List.mem_of_mem_filter hyF, hmemres y hyF, rfl⟩
  · intro r hr hres
    have hrF := hresmem r hr hres
    exact ⟨hxd ▸ head_date_le hFsorted hx hrF, date_le_getLast hFsorted hy hrF⟩

/-- C7 witness: the theorem applied to the single-session scenario. -/
theorem calculate_sessions_spec_dates_witness :
    DatesSorted singleSessionDb ∧
    (singleSessionDb.map (fun r => r.resolution)).Nodup ∧
    ∀ s ∈ ([⟨1, {"FRA", "USA"}, {"R2", "R1"}, 20200101, some 20200601⟩] : List Session),
      ∃ lv, s.last_vote = some lv ∧ s.first_vote ≤ lv ∧
        (∃ r ∈ singleSessionDb, r.resolution ∈ s.resolutions ∧ r.vote_date = s.first_vote) ∧
        (∃ r ∈ singleSessionDb, r.resolution ∈ s.resolutions ∧ r.vote_date = lv) ∧
        ∀ r ∈ singleSessionDb, r.resolution ∈ s.resolutions →
          s.first_vote ≤ r.vote_date ∧ r.vote_date ≤ lv :=
  ⟨by decide, by decide, calculate_sessions_spec_dates singleSessionDb
    [⟨1, {"FRA", "USA"}, {"R2", "R1"}, 20200101, some 20200601⟩] rfl
    (by decide) (by decide)⟩

/-- The characters of `String.intercalate.go`: the accumulator followed by
each remaining string preceded by the separator. -/
theorem intercalate_go_data (s : String) : ∀ (as : List String) (acc : String),
    (String.intercalate.go acc s as).data
      = acc.data ++ (as.map fun a => s.data ++ a.data).flatten := by
  intro as
  induction as with
  | nil =>
    intro acc
    simp [String.intercalate.go]
  | cons a as ih =>
    intro acc
    rw [String.intercalate.go, ih]
    simp [List.append_assoc]

/-- The characters of `String.intercalate` follow the `chunksSep` shape. -/
theorem intercalate_data (s : String) (l : List String) :
    (String.intercalate s l).data = chunksSep s.data (l.map String.data) := by
  cases l with
  | nil => rfl
  | cons a as =>
    show (String.intercalate.go a s as).data = _
    rw [intercalate_go_data]
    simp [chunksSep, List.map_map]
    rfl

/-- Two separator-free prefixes of the same character stream, each followed
by nothing or by a separator, coincide. -/
theorem append_sep_inj : ∀ (a b s1 s2 : List Char), '|' ∉ a → '|' ∉ b →
    (s1 = [] ∨ ∃ t, s1 = '|' :: t) → (s2 = [] ∨ ∃ t, s2 = '|' :: t) →
    a ++ s1 = b ++ s2 → a = b ∧ s1 = s2 := by
  intro a
  induction a with
  | nil =>
    intro b s1 s2 _ hb h1 _ heq
    cases b with
    | nil => exact ⟨rfl, heq⟩
    | cons c bs =>
      exfalso
      rcases h1 with rfl | ⟨t, rfl⟩
      · exact List.noConfusion heq
      · have hc : '|' = c := List.head_eq_of_cons_eq heq
        apply hb
        rw [← hc] at *
        exact List.mem_cons_self _ _
  | cons x as ih =>
    intro b s1 s2 ha hb h1 h2 heq
    cases b with
    | nil =>
      exfalso
      rcases h2 with rfl | ⟨t, rfl⟩
      · exact List.noConfusion heq
      · have hc : x = '|' := List.head_eq_of_cons_eq heq
        apply ha
        rw [hc]
        exact List.mem_cons_self _ _
    | cons y bs =>
      have hxy : x = y := List.head_eq_of_cons_eq heq
      have hrest : as ++ s1 = bs ++ s2 := List.tail_eq_of_cons_eq heq
      obtain ⟨h1', h2'⟩ := ih bs s1 s2 (fun hm => ha (List.mem_cons_of_mem x hm))
        (fun hm => hb (List.mem_cons_of_mem y hm)) h1 h2 hrest
      exact ⟨by rw [hxy, h1'], h2'⟩

/-- Flattening separator-prefixed chunks of a non-empty list starts with the
separator and continues with the joined chunks. -/
theorem flatten_map_sep (c : List Char) (cs : List (List Char)) :
    ((c :: cs).map fun x => ['|'] ++ x).flatten = '|' :: chunksSep ['|'] (c :: cs) := by
  simp [chunksSep]

/-- Joining non-empty, separator-free chunks with `'|'` is injective. -/
theorem chunksSep_inj : ∀ (l1 l2 : List (List Char)),
    (∀ x ∈ l1, x ≠ [] ∧ '|' ∉ x) → (∀ x ∈ l2, x ≠ [] ∧ '|' ∉ x) →
    chunksSep ['|'] l1 = chunksSep ['|'] l2 → l1 = l2 := by
  intro l1
  induction l1 with
  | nil =>
    intro l2 _ h2 heq
    cases l2 with
    | nil => rfl
    | cons b bs =>
      exfalso
      have hb := (h2 b (List.mem_cons_self b bs)).1
      cases b with
      | nil => exact hb rfl
      | cons c cs => exact List.noConfusion heq
  | cons a as ih =>
    intro l2 h1 h2 heq
    cases l2 with
    | nil =>
      exfalso
      have ha := (h1 a (List.mem_cons_self a as)).1
      cases a with
      | nil => exact ha rfl
      | cons c cs => exact List.noConfusion heq
    | cons b bs =>
      have hT1 : (as.map fun x => ['|'] ++ x).flatten = [] ∨
          ∃ t, (as.map fun x => ['|'] ++ x).flatten = '|' :: t := by
        cases as with
        | nil => exact Or.inl rfl
        | cons c cs => exact Or.inr ⟨_, flatten_map_sep c cs⟩
      have hT2 : (bs.map fun x => ['|'] ++ x).flatten = [] ∨
          ∃ t, (bs.map fun x => ['|'] ++ x).flatten = '|' :: t := by
        cases bs with
        | nil => exact Or.inl rfl
        | cons c cs => exact Or.inr ⟨_, flatten_map_sep c cs⟩
      have heq' : a ++ (as.map fun x => ['|'] ++ x).flatten
          = b ++ (bs.map fun x => ['|'] ++ x).flatten := heq
      obtain ⟨hab, hT⟩ := append_sep_inj a b _ _
        (h1 a (List.mem_cons_self a as)).2 (h2 b (List.mem_cons_self b bs)).2
        hT1 hT2 heq'
      subst hab
      cases as with
      | nil =>
        cases bs with
        | nil => rfl
        | cons d ds =>
          rw [flatten_map_sep] at hT
          exact List.noConfusion hT
      | cons c cs =>
        cases bs with
        | nil =>
          rw [flatten_map_sep] at hT
          exact List.noConfusion hT
        | cons d ds =>
          rw [flatten_map_sep, flatten_map_sep] at hT
          have hT' : chunksSep ['|'] (c :: cs) = chunksSep ['|'] (d :: ds) :=
            List.tail_eq_of_cons_eq hT
          rw [ih (d :: ds) (fun x hx => h1 x (List.mem_cons_of_mem a hx))
            (fun x hx => h2 x (List.mem_cons_of_mem a hx)) hT']

/-- A non-empty string has a non-empty character list. -/
theorem data_ne_nil {c : String} (h : c ≠ "") : c.data ≠ [] :=
  fun hd => h (String.ext hd)

/-- Equal fingerprints of well-formed rosters come from the identical
canonical roster list. -/
theorem grc_eq_of_key_eq {v1 v2 : List String} (h1 : WellFormedCodes v1)
    (h2 : WellFormedCodes v2)
    (heq : String.intercalate "|" (get_resolution_countries v1)
      = String.intercalate "|" (get_resolution_countries v2)) :
    get_resolution_countries v1 = get_resolution_countries v2 := by
  have hd := congrArg String.data heq
  rw [intercalate_data, intercalate_data] at hd
  have wf : ∀ (v : List String), WellFormedCodes v →
      ∀ x ∈ (get_resolution_countries v).map String.data, x ≠ [] ∧ '|' ∉ x := by
    intro v hv x hx
    obtain ⟨c, hc, rfl⟩ := List.mem_map.mp hx
    have hcv : c ∈ v := List.mem_dedup.mp ((grc_perm_dedup v).subset hc)
    exact ⟨data_ne_nil (hv c hcv).1, (hv c hcv).2⟩
  have hmaps := chunksSep_inj _ _ (wf v1 h1) (wf v2 h2) hd
  exact List.map_injective_iff.mpr (fun a b hab => String.ext hab) hmaps

/-- For well-formed rosters, fingerprints agree exactly when the rosters are
equal as sets. -/
theorem rkey_eq_iff {r1 r2 : VoteRecord} (h1 : WellFormedCodes r1.votes)
    (h2 : WellFormedCodes r2.votes) :
    rkey r1 = rkey r2 ↔ r1.votes.toFinset = r2.votes.toFinset := by
  constructor
  · intro h
    have hg := grc_eq_of_key_eq h1 h2 h
    calc r1.votes.toFinset = (get_resolution_countries r1.votes).toFinset :=
          (grc_toFinset _).symm
      _ = (get_resolution_countries r2.votes).toFinset := by rw [hg]
      _ = r2.votes.toFinset := grc_toFinset _
  · intro h
    unfold rkey
    rw [grc_eq_of_toFinset_eq h]

/-- C9: the roster fingerprint computed by the implementation (deduplicate,
sort, join with `'|'`) assigns identical keys to any two set-equal rosters
regardless of order and multiplicity (unconditionally); and on a completed
run over well-formed country codes (non-empty, `'|'`-free — the stream
contract supplies 3-letter codes) with distinct resolution ids, two records
are attributed to the same Session if and only if their rosters are
identical sets. -/
theorem fingerprint_canonical (db : List VoteRecord) (sessions : List Session)
    (h : calculate_sessions_spec db = Except.ok sessions)
    (hwf : ∀ r ∈ db, WellFormedCodes r.votes)
    (hids : (db.map (fun r => r.resolution)).Nodup) :
    (∀ v1 v2 : List String, v1.toFinset = v2.toFinset →
      String.intercalate "|" (get_resolution_countries v1)
        = String.intercalate "|" (get_resolution_countries v2)) ∧
    ∀ r1 ∈ db, ∀ r2 ∈ db,
      ((∃ s ∈ sessions, r1.resolution ∈ s.resolutions ∧ r2.resolution ∈ s.resolutions) ↔
        r1.votes.toFinset = r2.votes.toFinset) := by
  refine ⟨fun v1 v2 hv => by rw [grc_eq_of_toFinset_eq hv], ?_⟩
  obtain ⟨idxF, cacheF, lkF, inv, rfl⟩ := calculate_sessions_spec_ok h
  intro r1 hr1 r2 hr2
  constructor
  · rintro ⟨s, hs, hres1, hres2⟩
    obtain ⟨e, he, rfl⟩ := List.mem_map.mp hs
    have hkey : ∀ r ∈ db, r.resolution ∈ e.2.resolutions → rkey r = e.1 := by
      intro r hr hres
      rw [inv.resChar e he, List.mem_toFinset] at hres
      obtain ⟨r', hr', hrr⟩ := List.mem_map.mp hres
      have hr12 : r = r' := nodup_map_inj hids hr (List.mem_of_mem_filter hr') hrr.symm
      subst hr12
      have := (List.mem_filter.mp hr').2
      simpa using this
    exact (rkey_eq_iff (hwf r1 hr1) (hwf r2 hr2)).mp
      ((hkey r1 hr1 hres1).trans (hkey r2 hr2 hres2).symm)
  · intro hsets
    have hkeq : rkey r1 = rkey r2 := (rkey_eq_iff (hwf r1 hr1) (hwf r2 hr2)).mpr hsets
    obtain ⟨e, he, hek⟩ := List.mem_map.mp (inv.covered r1 hr1)
    refine ⟨e.2, List.mem_map_of_mem Prod.snd he, ?_, ?_⟩
    · rw [inv.resChar e he, List.mem_toFinset]
      exact List.mem_map_of_mem _ (List.mem_filter.mpr ⟨hr1, by simp [hek]⟩)
    · rw [inv.resChar e he, List.mem_toFinset]
      exact List.mem_map_of_mem _ (List.mem_filter.mpr ⟨hr2, by simp [hek, ← hkeq]⟩)

/-- C9 witness: the theorem applied to the single-session scenario. -/
theorem fingerprint_canonical_witness :
    (∀ r ∈ singleSessionDb, WellFormedCodes r.votes) ∧
    (singleSessionDb.map (fun r => r.resolution)).Nodup ∧
    ((∀ v1 v2 : List String, v1.toFinset = v2.toFinset →
      String.intercalate "|" (get_resolution_countries v1)
        = String.intercalate "|" (get_resolution_countries v2)) ∧
    ∀ r1 ∈ singleSessionDb, ∀ r2 ∈ singleSessionDb,
      ((∃ s ∈ ([⟨1, {"FRA", "USA"}, {"R2", "R1"}, 20200101, some 20200601⟩] : List Session),
          r1.resolution ∈ s.resolutions ∧ r2.resolution ∈ s.resolutions) ↔
        r1.votes.toFinset = r2.votes.toFinset)) :=
  ⟨by decide, by decide, fingerprint_canonical singleSessionDb
    [⟨1, {"FRA", "USA"}, {"R2", "R1"}, 20200101, some 20200601⟩] rfl
    (by decide) (by decide)⟩
